import Mathlib

/-!
Verification of the StringArtGenerator path-synthesis core.

The Python source is shallowly embedded as follows:

* `get_line_pixels` embeds `skimage.draw.line` (the Cython `_line` routine from
  scikit-image), which the generators import as `get_line_pixels`.  Machine
  integers become `Int`; the Cython `while d >= 0` inner loop is modelled with
  an explicit fuel of `d.toNat + 1`, which is never exhausted on the loop's
  reachable inputs since each pass subtracts `2*dc ≥ 2` from `d`.
* Pixel grids (`numpy` float32 arrays) become functions `Int → Int → ℚ`;
  `np.clip(v - line_darkness, 0, 255)` becomes `clip`.
* Each generator's `generate_path` loop (`src/src/greedy_generator.py`,
  `src/src/contour_generator.py`, `src/src/negative_greedy_generator.py`,
  and the `GreedyGenerator` in `src/main.py`) is an instance of one generic
  loop `runG`, parameterised by the per-policy score function; the loops are
  textually identical in the source apart from scoring.  The `for _ in
  tqdm(range(num_lines))` bound becomes structural recursion on `num_lines`.
* `AbstractGenerator._calculate_nail_coords` uses `math.cos`/`math.sin`;
  it is embedded over the reals, with Python `int()` truncation as `pyInt`.
-/

/-- One pass of the source's `while d >= 0: r += sr; d -= 2*dc` loop
(`skimage.draw._draw._line`), with explicit fuel.  On every call site the fuel
`d.toNat + 1` suffices because the loop body strictly decreases `d`. -/
def lineWhile (sr dc2 : ℤ) : ℕ → ℤ → ℤ → ℤ × ℤ
  | 0, r, d => (r, d)
  | fuel + 1, r, d =>
      if 0 ≤ d then lineWhile sr dc2 fuel (r + sr) (d - dc2) else (r, d)

/-- The `for i in range(dc)` loop of `skimage.draw._draw._line`: emits one pixel
per iteration ((c, r) when steep, (r, c) otherwise), then advances the state. -/
def lineLoop (steep : Bool) (sr sc dc2 dr2 : ℤ) : ℕ → ℤ → ℤ → ℤ → List (ℤ × ℤ)
  | 0, _, _, _ => []
  | n + 1, r, c, d =>
      (if steep then (c, r) else (r, c)) ::
        (let rd := lineWhile sr dc2 (d.toNat + 1) r d
         lineLoop steep sr sc dc2 dr2 n rd.1 (c + sc) (rd.2 + dr2))

/-- `skimage.draw.line(r0, c0, r1, c1)`, imported by the generators as
`get_line_pixels`: integer Bresenham rasterization of the segment from
`(r0, c0)` to `(r1, c1)`, endpoint included, returned as (row, col) pairs. -/
def get_line_pixels (r0 c0 r1 c1 : ℤ) : List (ℤ × ℤ) :=
  let dr := (r1 - r0).natAbs
  let dc := (c1 - c0).natAbs
  let sc : ℤ := if 0 < c1 - c0 then 1 else -1
  let sr : ℤ := if 0 < r1 - r0 then 1 else -1
  (if dc < dr then
    lineLoop true sc sr (2 * (dr : ℤ)) (2 * (dc : ℤ)) dr c0 r0 (2 * (dc : ℤ) - dr)
  else
    lineLoop false sr sc (2 * (dc : ℤ)) (2 * (dr : ℤ)) dc r0 c0 (2 * (dr : ℤ) - dc))
  ++ [(r1, c1)]


/-- The generators' in-bounds test
`(rr >= 0) & (rr < image_size) & (cc >= 0) & (cc < image_size)`. -/
def InBounds (image_size : ℕ) (p : ℤ × ℤ) : Prop :=
  0 ≤ p.1 ∧ p.1 < image_size ∧ 0 ≤ p.2 ∧ p.2 < image_size

instance (image_size : ℕ) (p : ℤ × ℤ) : Decidable (InBounds image_size p) := by
  unfold InBounds
  infer_instance

/-- `np.clip(v, 0, 255)` as used in every residual update. -/
def clip (v : ℚ) : ℚ := max 0 (min v 255)

/-- The rasterized pixels of the chord between `nail_coords[a]` and
`nail_coords[b]`.  Each generator calls
`get_line_pixels(start_coord[1], start_coord[0], end_coord[1], end_coord[0])`
where a coordinate is an `(x, y)` pair, so rows are `y` and columns are `x`. -/
def nailLine (nail_coords : ℤ → ℤ × ℤ) (a b : ℤ) : List (ℤ × ℤ) :=
  get_line_pixels (nail_coords a).2 (nail_coords a).1 (nail_coords b).2 (nail_coords b).1

/-- The chord's pixels restricted to the grid (the `valid_indices` filter). -/
def chordPixels (nail_coords : ℤ → ℤ × ℤ) (image_size : ℕ) (a b : ℤ) : List (ℤ × ℤ) :=
  (nailLine nail_coords a b).filter (fun p => decide (InBounds image_size p))

/-- A residual field: `self.residual_image`, a float32 grid embedded as
rationals, indexed (row, col). -/
abbrev Grid : Type := ℤ → ℤ → ℚ

/-- A scoring policy: score of the candidate chord (current, next) against the
current residual field. -/
abbrev ScoreFn : Type := Grid → ℤ → ℤ → ℚ

/-- Mutable search state of a `generate_path` run: the residual image, the
current nail, and the path built so far. -/
structure SAState where
  residual_image : Grid
  current_nail : ℤ
  path : List ℤ

/-- Configuration consumed by a `generate_path` run. -/
structure GConfig where
  num_nails : ℕ
  image_size : ℕ
  nail_coords : ℤ → ℤ × ℤ
  line_darkness : ℚ
  min_improvement_score : ℚ

/-- The candidate scan
```
best_next_nail = -1
max_score = -1
for next_nail in range(self.num_nails):
    if next_nail == current_nail: continue
    score = ...
    if score > max_score:
        max_score = score
        best_next_nail = next_nail
```
returning `(best_next_nail, max_score)`. -/
def findBest (score : ℕ → ℚ) (num_nails : ℕ) (current_nail : ℤ) : ℤ × ℚ :=
  (List.range num_nails).foldl
    (fun (acc : ℤ × ℚ) (j : ℕ) =>
      if (j : ℤ) = current_nail then acc
      else if acc.2 < score j then ((j : ℤ), score j) else acc)
    (-1, -1)

/-- The residual update of an accepted chord:
`residual[rr[valid], cc[valid]] = np.clip(residual[rr[valid], cc[valid]] - line_darkness, 0, 255)`. -/
def commitLine (cfg : GConfig) (residual : Grid) (current_nail best : ℤ) : Grid :=
  let pts := chordPixels cfg.nail_coords cfg.image_size current_nail best
  fun r c => if (r, c) ∈ pts then clip (residual r c - cfg.line_darkness) else residual r c

/-- One iteration of the `for _ in range(num_lines)` body: scan the candidates,
`break` (`none`) when `max_score < min_improvement_score`, otherwise commit the
winning chord and move to the winning nail. -/
def stepG (score : ScoreFn) (cfg : GConfig) (st : SAState) : Option SAState :=
  let bm := findBest (fun j => score st.residual_image st.current_nail (j : ℤ))
    cfg.num_nails st.current_nail
  if bm.2 < cfg.min_improvement_score then none
  else some ⟨commitLine cfg st.residual_image st.current_nail bm.1, bm.1, st.path ++ [bm.1]⟩

/-- The search loop, bounded by `num_lines` (the fuel argument), mirroring
`for _ in tqdm(range(num_lines))` with `break` on a failed improvement check. -/
def runG (score : ScoreFn) (cfg : GConfig) : ℕ → SAState → SAState
  | 0, st => st
  | n + 1, st =>
      match stepG score cfg st with
      | none => st
      | some st' => runG score cfg n st'

/-- `GreedyGenerator.generate_path` scoring (src/src/greedy_generator.py:49-53):
mean residual brightness over the chord's in-bounds pixels, 0 if none. -/
def mean_score (cfg : GConfig) : ScoreFn := fun residual current_nail next_nail =>
  let pts := chordPixels cfg.nail_coords cfg.image_size current_nail next_nail
  if 0 < pts.length then
    (pts.map (fun p => residual p.1 p.2)).sum / (pts.length : ℚ)
  else 0

/-- `GreedyGenerator.generate_path` scoring in src/main.py:109-112: the sum of
residual darkness over the chord's in-bounds pixels (`.sum()` of an empty
selection is 0). -/
def sum_score (cfg : GConfig) : ScoreFn := fun residual current_nail next_nail =>
  ((chordPixels cfg.nail_coords cfg.image_size current_nail next_nail).map
    (fun p => residual p.1 p.2)).sum

/-- The `dark_segments` list built by `ContourGenerator.generate_path`
(src/src/contour_generator.py:31-48): scanning the chord's pixels in raster
order, out-of-bounds pixels are skipped (they do not break a run), a pixel with
residual above `darkness_threshold` extends the current run, any other pixel
closes a positive run; a trailing positive run is flushed at the end.
`segStep` is the body of the scan's `for r, c in zip(rr, cc)` loop, acting on
the `(dark_segments, current_run)` accumulator. -/
def segStep (image_size : ℕ) (darkness_threshold : ℚ) (residual : Grid)
    (acc : List ℕ × ℕ) (p : ℤ × ℤ) : List ℕ × ℕ :=
  if InBounds image_size p then
    if darkness_threshold < residual p.1 p.2 then (acc.1, acc.2 + 1)
    else if 0 < acc.2 then (acc.1 ++ [acc.2], 0) else acc
  else acc

/-- Flushing the trailing run after the pixel scan:
`if current_run > 0: dark_segments.append(current_run)`. -/
def segFlush (acc : List ℕ × ℕ) : List ℕ :=
  if 0 < acc.2 then acc.1 ++ [acc.2] else acc.1

def dark_segments (image_size : ℕ) (darkness_threshold : ℚ) (residual : Grid)
    (pts : List (ℤ × ℤ)) : List ℕ :=
  segFlush (pts.foldl (segStep image_size darkness_threshold residual) ([], 0))

/-- The two-tier contour score (src/src/contour_generator.py:50-64):
`continuous_score` is the sum of squared run lengths; exactly one segment earns
the constant bonus `10000000`, zero segments score 0, two or more segments get
the bare continuity score. -/
def contour_score (image_size : ℕ) (darkness_threshold : ℚ) (residual : Grid)
    (pts : List (ℤ × ℤ)) : ℚ :=
  let segs := dark_segments image_size darkness_threshold residual pts
  let continuous_score : ℕ := (segs.map (fun l => l * l)).sum
  if segs.length = 1 then (continuous_score : ℚ) + 10000000
  else if segs.length = 0 then 0
  else (continuous_score : ℚ)

/-- `ContourGenerator.generate_path` scoring as a policy: the raw (unfiltered)
rasterized pixels are scanned, bounds checked per pixel. -/
def contour_policy (cfg : GConfig) (darkness_threshold : ℚ) : ScoreFn :=
  fun residual current_nail next_nail =>
    contour_score cfg.image_size darkness_threshold residual
      (nailLine cfg.nail_coords current_nail next_nail)

/-- `NegativeGreedyGenerator.generate_path` scoring
(src/src/negative_greedy_generator.py:60-70): mean residual brightness times
the mean eye-protection weight over the chord's in-bounds pixels, 0 if none. -/
def negative_score (cfg : GConfig) (eye_protection_mask : Grid) : ScoreFn :=
  fun residual current_nail next_nail =>
    let pts := chordPixels cfg.nail_coords cfg.image_size current_nail next_nail
    if 0 < pts.length then
      ((pts.map (fun p => residual p.1 p.2)).sum / (pts.length : ℚ)) *
        ((pts.map (fun p => eye_protection_mask p.1 p.2)).sum / (pts.length : ℚ))
    else 0

/-- `GreedyGenerator.generate_path(num_lines, ...)` from
src/src/greedy_generator.py: starts at nail 0 with path `[0]` and runs the
greedy loop with mean-brightness scoring on the given residual image. -/
def greedy_generate_path (cfg : GConfig) (residual : Grid) (num_lines : ℕ) : SAState :=
  runG (mean_score cfg) cfg num_lines ⟨residual, 0, [0]⟩

/-- `GreedyGenerator.generate_path` from src/main.py (aggregate-sum policy). -/
def main_greedy_generate_path (cfg : GConfig) (residual : Grid) (num_lines : ℕ) : SAState :=
  runG (sum_score cfg) cfg num_lines ⟨residual, 0, [0]⟩

/-- `ContourGenerator.generate_path` from src/src/contour_generator.py
(`save_progress` only performs I/O and does not touch the search state). -/
def contour_generate_path (cfg : GConfig) (darkness_threshold : ℚ) (residual : Grid)
    (num_lines : ℕ) : SAState :=
  runG (contour_policy cfg darkness_threshold) cfg num_lines ⟨residual, 0, [0]⟩

/-- `NegativeGreedyGenerator.generate_path` from
src/src/negative_greedy_generator.py. -/
def negative_generate_path (cfg : GConfig) (eye_protection_mask : Grid) (residual : Grid)
    (num_lines : ℕ) : SAState :=
  runG (negative_score cfg eye_protection_mask) cfg num_lines ⟨residual, 0, [0]⟩

/-- Python `int()` truncation toward zero, applied to a real value. -/
noncomputable def pyInt (x : ℝ) : ℤ := if 0 ≤ x then ⌊x⌋ else ⌈x⌉

/-- `self.center = (image_size // 2, image_size // 2)` (both components equal). -/
def centerOf (image_size : ℕ) : ℕ := image_size / 2

/-- `self.radius = image_size // 2 - 5` (Python integer arithmetic). -/
def radiusOf (image_size : ℕ) : ℤ := (centerOf image_size : ℤ) - 5

/-- The angle `2 * math.pi * i / self.num_nails`. -/
noncomputable def nailAngle (num_nails i : ℕ) : ℝ := 2 * Real.pi * i / num_nails

/-- `AbstractGenerator._calculate_nail_coords`
(src/src/abstract_generator.py:273-281): for each `i`, the point
`(int(center + radius*cos(angle)), int(center + radius*sin(angle)))`.
The source's `math.cos`/`math.sin` floats are embedded as exact reals. -/
noncomputable def calculate_nail_coords (num_nails image_size : ℕ) : List (ℤ × ℤ) :=
  (List.range num_nails).map (fun i =>
    (pyInt ((centerOf image_size : ℝ) +
        (radiusOf image_size : ℝ) * Real.cos (nailAngle num_nails i)),
     pyInt ((centerOf image_size : ℝ) +
        (radiusOf image_size : ℝ) * Real.sin (nailAngle num_nails i))))

/-- Euclidean distance from an integer point to the canvas center. -/
noncomputable def distToCenter (image_size : ℕ) (p : ℤ × ℤ) : ℝ :=
  Real.sqrt (((p.1 : ℝ) - (centerOf image_size : ℝ)) ^ 2 +
    ((p.2 : ℝ) - (centerOf image_size : ℝ)) ^ 2)

/-- Reference partition of a Boolean trace into the lengths of its maximal
runs of `true`, used to check `dark_segments` against the specified
"maximal runs where residual exceeds the threshold" semantics. -/
def maximalRunsAux : List Bool → ℕ → List ℕ
  | [], run => if 0 < run then [run] else []
  | true :: rest, run => maximalRunsAux rest (run + 1)
  | false :: rest, run =>
      if 0 < run then run :: maximalRunsAux rest 0 else maximalRunsAux rest 0

/-- Lengths of the maximal `true`-runs of a Boolean trace. -/
def maximalRuns (l : List Bool) : List ℕ := maximalRunsAux l 0

/-- Modelled from the spec: §6 lists a `start_nail` option (int, default 0)
that the search's initial state is supposed to consume; no generator in the
source accepts such a parameter.  This is the spec's greedy search with the
start nail as a configuration value: initial state
`current nail = start_nail; path = [start_nail]`, otherwise identical to
`greedy_generate_path`. -/
def generate_path_spec_start (start_nail : ℤ) (cfg : GConfig) (residual : Grid)
    (num_lines : ℕ) : SAState :=
  runG (mean_score cfg) cfg num_lines ⟨residual, start_nail, [start_nail]⟩

theorem findBest_succ (score : ℕ → ℚ) (n : ℕ) (cur : ℤ) :
    findBest score (n + 1) cur =
      (if (n : ℤ) = cur then findBest score n cur
       else if (findBest score n cur).2 < score n then ((n : ℤ), score n)
       else findBest score n cur) := by
  unfold findBest
  rw [List.range_succ, List.foldl_append]
  simp

theorem findBest_spec (score : ℕ → ℚ) (N : ℕ) (cur : ℤ) :
    (findBest score N cur = (-1, -1) ∧ ∀ j, j < N → (j : ℤ) ≠ cur → score j ≤ -1) ∨
    (∃ b : ℕ, b < N ∧ (b : ℤ) ≠ cur ∧ findBest score N cur = ((b : ℤ), score b) ∧
      (∀ j, j < N → (j : ℤ) ≠ cur → score j ≤ score b) ∧
      (∀ j, j < N → (j : ℤ) ≠ cur → score j = score b → b ≤ j)) := by
  induction N with
  | zero =>
    left
    refine ⟨rfl, ?_⟩
    intro j hj
    omega
  | succ n ih =>
    rw [findBest_succ]
    by_cases hcur : (n : ℤ) = cur
    · rw [if_pos hcur]
      rcases ih with ⟨h1, h2⟩ | ⟨b, hbn, hbc, hbeq, hmax, hmin⟩
      · left
        refine ⟨h1, ?_⟩
        intro j hj hjc
        rcases Nat.lt_succ_iff_lt_or_eq.mp hj with h | h
        · exact h2 j h hjc
        · exact absurd (h ▸ hcur) hjc
      · right
        refine ⟨b, Nat.lt_succ_of_lt hbn, hbc, hbeq, ?_, ?_⟩
        · intro j hj hjc
          rcases Nat.lt_succ_iff_lt_or_eq.mp hj with h | h
          · exact hmax j h hjc
          · exact absurd (h ▸ hcur) hjc
        · intro j hj hjc hje
          rcases Nat.lt_succ_iff_lt_or_eq.mp hj with h | h
          · exact hmin j h hjc hje
          · exact absurd (h ▸ hcur) hjc
    · rw [if_neg hcur]
      rcases ih with ⟨h1, h2⟩ | ⟨b, hbn, hbc, hbeq, hmax, hmin⟩
      · rw [h1]
        by_cases hs : (-1 : ℚ) < score n
        · rw [if_pos hs]
          right
          refine ⟨n, Nat.lt_succ_self n, hcur, rfl, ?_, ?_⟩
          · intro j hj hjc
            rcases Nat.lt_succ_iff_lt_or_eq.mp hj with h | h
            · exact (h2 j h hjc).trans (le_of_lt hs)
            · exact le_of_eq (by rw [h])
          · intro j hj hjc hje
            rcases Nat.lt_succ_iff_lt_or_eq.mp hj with h | h
            · exact absurd (hje ▸ h2 j h hjc) (not_le_of_lt hs)
            · omega
        · rw [if_neg hs]
          left
          refine ⟨rfl, ?_⟩
          intro j hj hjc
          rcases Nat.lt_succ_iff_lt_or_eq.mp hj with h | h
          · exact h2 j h hjc
          · rw [h]; exact le_of_not_lt hs
      · rw [hbeq]
        by_cases hs : score b < score n
        · rw [if_pos hs]
          right
          refine ⟨n, Nat.lt_succ_self n, hcur, rfl, ?_, ?_⟩
          · intro j hj hjc
            rcases Nat.lt_succ_iff_lt_or_eq.mp hj with h | h
            · exact (hmax j h hjc).trans (le_of_lt hs)
            · exact le_of_eq (by rw [h])
          · intro j hj hjc hje
            rcases Nat.lt_succ_iff_lt_or_eq.mp hj with h | h
            · exact absurd (hje ▸ hmax j h hjc) (not_le_of_lt hs)
            · omega
        · rw [if_neg hs]
          right
          refine ⟨b, Nat.lt_succ_of_lt hbn, hbc, rfl, ?_, ?_⟩
          · intro j hj hjc
            rcases Nat.lt_succ_iff_lt_or_eq.mp hj with h | h
            · exact hmax j h hjc
            · rw [h]; exact le_of_not_lt hs
          · intro j hj hjc hje
            rcases Nat.lt_succ_iff_lt_or_eq.mp hj with h | h
            · exact hmin j h hjc hje
            · omega

theorem exists_candidate (N : ℕ) (hN : 2 ≤ N) (cur : ℤ) :
    ∃ j : ℕ, j < N ∧ (j : ℤ) ≠ cur := by
  by_cases h0 : (0 : ℤ) = cur
  · exact ⟨1, by omega, by rw [← h0]; decide⟩
  · exact ⟨0, by omega, h0⟩

theorem runG_length_le (score : ScoreFn) (cfg : GConfig) :
    ∀ (n : ℕ) (st : SAState),
      (runG score cfg n st).path.length ≤ st.path.length + n := by
  intro n
  induction n with
  | zero => intro st; simp [runG]
  | succ m ih =>
    intro st
    rw [runG]
    cases hst : stepG score cfg st with
    | none =>
      show st.path.length ≤ st.path.length + (m + 1)
      omega
    | some st' =>
      show (runG score cfg m st').path.length ≤ st.path.length + (m + 1)
      have hlen : st'.path.length = st.path.length + 1 := by
        unfold stepG at hst
        by_cases hb : (findBest (fun j => score st.residual_image st.current_nail (j : ℤ))
            cfg.num_nails st.current_nail).2 < cfg.min_improvement_score
        · simp [hb] at hst
        · simp [hb] at hst
          rw [← hst]
          simp
      have := ih st'
      omega

theorem stepG_none_runG (score : ScoreFn) (cfg : GConfig) (n : ℕ) (st : SAState)
    (h : stepG score cfg st = none) : runG score cfg n st = st := by
  cases n with
  | zero => rfl
  | succ m => rw [runG, h]

theorem stepG_some_parts (score : ScoreFn) (cfg : GConfig) (st st' : SAState)
    (h : stepG score cfg st = some st') :
    ¬ (findBest (fun j => score st.residual_image st.current_nail (j : ℤ))
        cfg.num_nails st.current_nail).2 < cfg.min_improvement_score ∧
    st' = ⟨commitLine cfg st.residual_image st.current_nail
        (findBest (fun j => score st.residual_image st.current_nail (j : ℤ))
          cfg.num_nails st.current_nail).1,
      (findBest (fun j => score st.residual_image st.current_nail (j : ℤ))
          cfg.num_nails st.current_nail).1,
      st.path ++ [(findBest (fun j => score st.residual_image st.current_nail (j : ℤ))
          cfg.num_nails st.current_nail).1]⟩ := by
  unfold stepG at h
  by_cases hb : (findBest (fun j => score st.residual_image st.current_nail (j : ℤ))
      cfg.num_nails st.current_nail).2 < cfg.min_improvement_score
  · simp [hb] at h
  · simp [hb] at h
    exact ⟨hb, h.symm⟩

theorem runG_head (score : ScoreFn) (cfg : GConfig) :
    ∀ (n : ℕ) (st : SAState), st.path ≠ [] →
      (runG score cfg n st).path.head? = st.path.head? := by
  intro n
  induction n with
  | zero => intro st _; rfl
  | succ m ih =>
    intro st hne
    rw [runG]
    cases hst : stepG score cfg st with
    | none => rfl
    | some st' =>
      obtain ⟨-, hparts⟩ := stepG_some_parts score cfg st st' hst
      have hpath : st'.path = st.path ++
          [(findBest (fun j => score st.residual_image st.current_nail (j : ℤ))
            cfg.num_nails st.current_nail).1] := by rw [hparts]
      have h1 : st'.path ≠ [] := by
        rw [hpath]
        simp
      rw [ih st' h1, hpath, List.head?_append_of_ne_nil]
      exact hne

theorem clip_mem_Icc (v : ℚ) : 0 ≤ clip v ∧ clip v ≤ 255 := by
  unfold clip
  constructor
  · exact le_max_left 0 _
  · apply max_le
    · norm_num
    · exact (min_le_right v 255).trans (by norm_num)

theorem commitLine_preserves (P : ℚ → Prop) (hP : ∀ v, P (clip v)) (cfg : GConfig)
    (residual : Grid) (a b : ℤ) (r c : ℤ) (h : P (residual r c)) :
    P (commitLine cfg residual a b r c) := by
  unfold commitLine
  by_cases hm : (r, c) ∈ chordPixels cfg.nail_coords cfg.image_size a b
  · simp only [hm, if_true]
    exact hP _
  · simp only [hm, if_false]
    exact h

theorem runG_preserves (P : ℚ → Prop) (hP : ∀ v, P (clip v)) (score : ScoreFn)
    (cfg : GConfig) :
    ∀ (n : ℕ) (st : SAState) (r c : ℤ), P (st.residual_image r c) →
      P ((runG score cfg n st).residual_image r c) := by
  intro n
  induction n with
  | zero => intro st r c h; exact h
  | succ m ih =>
    intro st r c h
    rw [runG]
    cases hst : stepG score cfg st with
    | none => exact h
    | some st' =>
      apply ih
      obtain ⟨-, hparts⟩ := stepG_some_parts score cfg st st' hst
      rw [hparts]
      exact commitLine_preserves P hP cfg st.residual_image _ _ r c h

theorem chordPixels_inbounds (nail_coords : ℤ → ℤ × ℤ) (image_size : ℕ) (a b : ℤ) :
    ∀ p ∈ chordPixels nail_coords image_size a b, InBounds image_size p := by
  intro p hp
  unfold chordPixels at hp
  rw [List.mem_filter] at hp
  exact of_decide_eq_true hp.2

theorem sum_residual_nonneg (residual : Grid) (image_size : ℕ) (pts : List (ℤ × ℤ))
    (hin : ∀ p ∈ pts, InBounds image_size p)
    (hres : ∀ r c, InBounds image_size (r, c) → 0 ≤ residual r c) :
    0 ≤ (pts.map (fun p => residual p.1 p.2)).sum := by
  apply List.sum_nonneg
  intro x hx
  rw [List.mem_map] at hx
  obtain ⟨p, hp, rfl⟩ := hx
  exact hres p.1 p.2 (hin p hp)

theorem mean_score_nonneg (cfg : GConfig) (residual : Grid) (a b : ℤ)
    (hres : ∀ r c, InBounds cfg.image_size (r, c) → 0 ≤ residual r c) :
    0 ≤ mean_score cfg residual a b := by
  unfold mean_score
  by_cases h : 0 < (chordPixels cfg.nail_coords cfg.image_size a b).length
  · simp only [h, if_true]
    apply div_nonneg
    · exact sum_residual_nonneg residual cfg.image_size _
        (chordPixels_inbounds cfg.nail_coords cfg.image_size a b) hres
    · positivity
  · simp only [h, if_false]
    exact le_refl 0

theorem sum_score_nonneg (cfg : GConfig) (residual : Grid) (a b : ℤ)
    (hres : ∀ r c, InBounds cfg.image_size (r, c) → 0 ≤ residual r c) :
    0 ≤ sum_score cfg residual a b := by
  unfold sum_score
  exact sum_residual_nonneg residual cfg.image_size _
    (chordPixels_inbounds cfg.nail_coords cfg.image_size a b) hres

theorem contour_score_nonneg (image_size : ℕ) (darkness_threshold : ℚ) (residual : Grid)
    (pts : List (ℤ × ℤ)) : 0 ≤ contour_score image_size darkness_threshold residual pts := by
  unfold contour_score
  by_cases h1 : (dark_segments image_size darkness_threshold residual pts).length = 1
  · simp only [h1, if_true]
    positivity
  · simp only [h1, if_false]
    by_cases h0 : (dark_segments image_size darkness_threshold residual pts).length = 0
    · simp only [h0, if_true]
      exact le_refl 0
    · simp only [h0, if_false]
      positivity

theorem contour_policy_nonneg (cfg : GConfig) (darkness_threshold : ℚ) (residual : Grid)
    (a b : ℤ) : 0 ≤ contour_policy cfg darkness_threshold residual a b :=
  contour_score_nonneg cfg.image_size darkness_threshold residual _

theorem negative_score_nonneg (cfg : GConfig) (eye_protection_mask : Grid) (residual : Grid)
    (a b : ℤ) (hres : ∀ r c, InBounds cfg.image_size (r, c) → 0 ≤ residual r c)
    (hmask : ∀ r c, 0 ≤ eye_protection_mask r c) :
    0 ≤ negative_score cfg eye_protection_mask residual a b := by
  unfold negative_score
  by_cases h : 0 < (chordPixels cfg.nail_coords cfg.image_size a b).length
  · simp only [h, if_true]
    apply mul_nonneg
    · apply div_nonneg
      · exact sum_residual_nonneg residual cfg.image_size _
          (chordPixels_inbounds cfg.nail_coords cfg.image_size a b) hres
      · positivity
    · apply div_nonneg
      · apply List.sum_nonneg
        intro x hx
        rw [List.mem_map] at hx
        obtain ⟨p, hp, rfl⟩ := hx
        exact hmask p.1 p.2
      · positivity
  · simp only [h, if_false]
    exact le_refl 0

/-- Under a non-negative scoring policy and at least two nails, the scan's
best score is a genuine candidate score: the `-1` sentinel never survives. -/
theorem findBest_of_nonneg (score : ℕ → ℚ) (N : ℕ) (cur : ℤ) (hN : 2 ≤ N)
    (hs : ∀ j, j < N → 0 ≤ score j) :
    ∃ b : ℕ, b < N ∧ (b : ℤ) ≠ cur ∧ findBest score N cur = ((b : ℤ), score b) ∧
      (∀ j, j < N → (j : ℤ) ≠ cur → score j ≤ score b) ∧
      (∀ j, j < N → (j : ℤ) ≠ cur → score j = score b → b ≤ j) := by
  rcases findBest_spec score N cur with ⟨-, hall⟩ | h
  · obtain ⟨j, hj, hjc⟩ := exists_candidate N hN cur
    have h1 := hall j hj hjc
    have h2 := hs j hj
    linarith
  · exact h

/-- Invariant: if the scoring policy is non-negative on non-negative residuals,
every nail the search appends is a real candidate index in `[0, num_nails)`. -/
theorem runG_path_valid (score : ScoreFn) (cfg : GConfig) (hN : 2 ≤ cfg.num_nails)
    (hscore : ∀ (res : Grid) (cur : ℤ) (j : ℕ),
      (∀ r c, InBounds cfg.image_size (r, c) → 0 ≤ res r c) → 0 ≤ score res cur (j : ℤ)) :
    ∀ (n : ℕ) (st : SAState),
      (∀ r c, InBounds cfg.image_size (r, c) → 0 ≤ st.residual_image r c) →
      (∀ x ∈ st.path, 0 ≤ x ∧ x < cfg.num_nails) →
      ∀ x ∈ (runG score cfg n st).path, 0 ≤ x ∧ x < cfg.num_nails := by
  intro n
  induction n with
  | zero => intro st _ hpath; exact hpath
  | succ m ih =>
    intro st hres hpath
    rw [runG]
    cases hst : stepG score cfg st with
    | none => exact hpath
    | some st' =>
      show ∀ x ∈ (runG score cfg m st').path, 0 ≤ x ∧ x < cfg.num_nails
      obtain ⟨-, hparts⟩ := stepG_some_parts score cfg st st' hst
      obtain ⟨b, hbn, hbc, hbeq, -, -⟩ :=
        findBest_of_nonneg (fun j => score st.residual_image st.current_nail (j : ℤ))
          cfg.num_nails st.current_nail hN
          (fun j hj => hscore st.residual_image st.current_nail j hres)
      apply ih
      · intro r c hrc
        rw [hparts]
        exact commitLine_preserves (fun v => 0 ≤ v)
          (fun v => (clip_mem_Icc v).1) cfg st.residual_image _ _ r c (hres r c hrc)
      · intro x hx
        rw [hparts] at hx
        simp only [List.mem_append, List.mem_singleton] at hx
        rcases hx with hx | hx
        · exact hpath x hx
        · rw [hx, hbeq]
          constructor
          · show (0 : ℤ) ≤ (b : ℤ)
            exact_mod_cast Nat.zero_le b
          · show (b : ℤ) < (cfg.num_nails : ℤ)
            exact_mod_cast hbn

/-- When the threshold is at most 0 and the policy is non-negative, every
iteration commits a chord: the loop never exits early. -/
theorem runG_exact_length (score : ScoreFn) (cfg : GConfig) (hN : 2 ≤ cfg.num_nails)
    (hmin : cfg.min_improvement_score ≤ 0)
    (hscore : ∀ (res : Grid) (cur : ℤ) (j : ℕ),
      (∀ r c, InBounds cfg.image_size (r, c) → 0 ≤ res r c) → 0 ≤ score res cur (j : ℤ)) :
    ∀ (n : ℕ) (st : SAState),
      (∀ r c, InBounds cfg.image_size (r, c) → 0 ≤ st.residual_image r c) →
      (runG score cfg n st).path.length = st.path.length + n := by
  intro n
  induction n with
  | zero => intro st _; rfl
  | succ m ih =>
    intro st hres
    obtain ⟨b, hbn, hbc, hbeq, -, -⟩ :=
      findBest_of_nonneg (fun j => score st.residual_image st.current_nail (j : ℤ))
        cfg.num_nails st.current_nail hN
        (fun j hj => hscore st.residual_image st.current_nail j hres)
    have hnb : ¬ (findBest (fun j => score st.residual_image st.current_nail (j : ℤ))
        cfg.num_nails st.current_nail).2 < cfg.min_improvement_score := by
      rw [hbeq]
      have := hscore st.residual_image st.current_nail b hres
      simp only
      linarith
    have hstep : stepG score cfg st = some
        ⟨commitLine cfg st.residual_image st.current_nail
          (findBest (fun j => score st.residual_image st.current_nail (j : ℤ))
            cfg.num_nails st.current_nail).1,
        (findBest (fun j => score st.residual_image st.current_nail (j : ℤ))
            cfg.num_nails st.current_nail).1,
        st.path ++ [(findBest (fun j => score st.residual_image st.current_nail (j : ℤ))
            cfg.num_nails st.current_nail).1]⟩ := by
      unfold stepG
      rw [if_neg hnb]
    rw [runG, hstep]
    show (runG score cfg m _).path.length = st.path.length + (m + 1)
    rw [ih]
    · simp only [List.length_append, List.length_singleton]
      omega
    · intro r c hrc
      exact commitLine_preserves (fun v => 0 ≤ v)
        (fun v => (clip_mem_Icc v).1) cfg st.residual_image _ _ r c (hres r c hrc)

/-- The in-bounds dark/light trace of a pixel list: one Boolean per in-bounds
pixel, `true` when the residual exceeds the darkness threshold. -/
def darkFlags (image_size : ℕ) (darkness_threshold : ℚ) (residual : Grid)
    (pts : List (ℤ × ℤ)) : List Bool :=
  (pts.filter (fun p => decide (InBounds image_size p))).map
    (fun p => decide (darkness_threshold < residual p.1 p.2))

theorem maximalRunsAux_nil (run : ℕ) :
    maximalRunsAux [] run = if 0 < run then [run] else [] := rfl

theorem maximalRunsAux_true (l : List Bool) (run : ℕ) :
    maximalRunsAux (true :: l) run = maximalRunsAux l (run + 1) := rfl

theorem maximalRunsAux_false (l : List Bool) (run : ℕ) :
    maximalRunsAux (false :: l) run =
      if 0 < run then run :: maximalRunsAux l 0 else maximalRunsAux l 0 := rfl

theorem segFold_maximalRunsAux (s : ℕ) (t : ℚ) (res : Grid) :
    ∀ (pts : List (ℤ × ℤ)) (segs : List ℕ) (run : ℕ),
      segFlush (pts.foldl (segStep s t res) (segs, run)) =
        segs ++ maximalRunsAux (darkFlags s t res pts) run := by
  intro pts
  induction pts with
  | nil =>
    intro segs run
    unfold segFlush darkFlags
    rw [List.filter_nil, List.map_nil, maximalRunsAux_nil]
    by_cases hr : 0 < run
    · simp [hr]
    · simp [hr]
  | cons p rest ih =>
    intro segs run
    rw [List.foldl_cons]
    by_cases hin : InBounds s p
    · have hflags : darkFlags s t res (p :: rest) =
          decide (t < res p.1 p.2) :: darkFlags s t res rest := by
        unfold darkFlags
        rw [List.filter_cons_of_pos (by simpa using hin), List.map_cons]
      by_cases hd : t < res p.1 p.2
      · have hstep : segStep s t res (segs, run) p = (segs, run + 1) := by
          unfold segStep
          rw [if_pos hin, if_pos hd]
        have hfl : decide (t < res p.1 p.2) = true := by simpa using hd
        rw [hstep, ih segs (run + 1), hflags, hfl, maximalRunsAux_true]
      · have hfl : decide (t < res p.1 p.2) = false := by simpa using hd
        by_cases hr : 0 < run
        · have hstep : segStep s t res (segs, run) p = (segs ++ [run], 0) := by
            unfold segStep
            rw [if_pos hin, if_neg hd, if_pos hr]
          rw [hstep, ih (segs ++ [run]) 0, hflags, hfl, maximalRunsAux_false,
            if_pos hr, List.append_assoc, List.singleton_append]
        · have hrun : run = 0 := by omega
          have hstep : segStep s t res (segs, run) p = (segs, run) := by
            unfold segStep
            rw [if_pos hin, if_neg hd, if_neg hr]
          rw [hstep, ih segs run, hflags, hfl, maximalRunsAux_false, if_neg hr, hrun]
    · have hstep : segStep s t res (segs, run) p = (segs, run) := by
        unfold segStep
        rw [if_neg hin]
      have hflags : darkFlags s t res (p :: rest) = darkFlags s t res rest := by
        unfold darkFlags
        rw [List.filter_cons_of_neg (by simpa using hin)]
      rw [hstep, ih segs run, hflags]

/-- The source's incremental `dark_segments` scan computes exactly the lengths
of the maximal above-threshold runs of the chord's in-bounds pixel trace. -/
theorem dark_segments_eq_maximalRuns (s : ℕ) (t : ℚ) (res : Grid)
    (pts : List (ℤ × ℤ)) :
    dark_segments s t res pts = maximalRuns (darkFlags s t res pts) := by
  unfold dark_segments maximalRuns
  rw [segFold_maximalRunsAux s t res pts [] 0]
  rfl

theorem maximalRunsAux_replicate_true :
    ∀ (n : ℕ) (l : List Bool) (run : ℕ),
      maximalRunsAux (List.replicate n true ++ l) run = maximalRunsAux l (run + n) := by
  intro n
  induction n with
  | zero => intro l run; rfl
  | succ m ih =>
    intro l run
    rw [List.replicate_succ, List.cons_append]
    show maximalRunsAux (List.replicate m true ++ l) (run + 1) = maximalRunsAux l (run + (m + 1))
    rw [ih l (run + 1)]
    congr 1
    omega

theorem lineLoop_row (sr sc dc2 : ℤ) :
    ∀ (n : ℕ) (r c d : ℤ), d < 0 →
      lineLoop false sr sc dc2 0 n r c d =
        (List.range n).map (fun k : ℕ => ((r, c + (k : ℤ) * sc) : ℤ × ℤ)) := by
  intro n
  induction n with
  | zero => intro r c d _; simp [lineLoop]
  | succ m ih =>
    intro r c d hd
    rw [lineLoop]
    have htn : d.toNat = 0 := Int.toNat_of_nonpos (le_of_lt hd)
    have hwh : lineWhile sr dc2 (d.toNat + 1) r d = (r, d) := by
      rw [htn]
      unfold lineWhile
      rw [if_neg (not_le_of_lt hd)]
    simp only [hwh]
    rw [add_zero, ih r (c + sc) d hd, List.range_succ_eq_map, List.map_cons, List.map_map]
    congr 1
    · rw [Nat.cast_zero, zero_mul, add_zero]
      rfl
    · apply List.map_congr_left
      intro k _
      show ((r, c + sc + (k : ℤ) * sc) : ℤ × ℤ) = (r, c + ((k + 1 : ℕ) : ℤ) * sc)
      have h : c + sc + (k : ℤ) * sc = c + ((k : ℤ) + 1) * sc := by ring
      rw [h]
      norm_num

theorem get_line_pixels_row (r c0 : ℤ) (n : ℕ) (hn : 0 < n) :
    get_line_pixels r c0 r (c0 + n) =
      (List.range n).map (fun k : ℕ => ((r, c0 + (k : ℤ)) : ℤ × ℤ)) ++ [(r, c0 + n)] := by
  have h1 : (r - r).natAbs = 0 := by simp
  have h2 : (c0 + (n : ℤ) - c0).natAbs = n := by simp
  have hsc : (0 : ℤ) < c0 + n - c0 := by
    have h : c0 + (n : ℤ) - c0 = (n : ℤ) := by ring
    rw [h]
    exact_mod_cast hn
  simp only [get_line_pixels, h1, h2, if_pos hsc]
  have h3 : ¬ (n < 0) := by omega
  rw [if_neg h3]
  have h4 : (2 : ℤ) * ((0 : ℕ) : ℤ) = 0 := by norm_num
  rw [h4]
  congr 1
  rw [lineLoop_row _ _ _ n r c0 _ (by omega)]
  apply List.map_congr_left
  intro k _
  rw [mul_one]



/-- Claim C3 counterexample: the single-segment bonus (10000000) does not
dominate every multi-segment continuity score.  On a 5000-pixel grid, the
horizontal chord from (0,0) to (0,4600) has two dark runs of length 2300 each
(residual 11 everywhere except 0 at column 2300, threshold 10) and scores
2300² + 2300² = 10580000, while the chord at (1,0) with one unbroken dark run
of length L = 1 scores 1 + 10000000 = 10000001: the single-run chord does NOT
outscore the two-run chord even though L1 + L2 = 4600 > 1 = L. -/
theorem c3_counterexample :
    dark_segments 5000 10 (fun _ c => if c = 2300 then 0 else 11)
        (get_line_pixels 1 0 1 0) = [1] ∧
    dark_segments 5000 10 (fun _ c => if c = 2300 then 0 else 11)
        (get_line_pixels 0 0 0 4600) = [2300, 2300] ∧
    (1 : ℕ) < 2300 + 2300 ∧
    contour_score 5000 10 (fun _ c => if c = 2300 then 0 else 11)
        (get_line_pixels 1 0 1 0) <
      contour_score 5000 10 (fun _ c => if c = 2300 then 0 else 11)
        (get_line_pixels 0 0 0 4600) := by
  have hsmall : dark_segments 5000 10 (fun _ c => if c = 2300 then 0 else 11)
      (get_line_pixels 1 0 1 0) = [1] := by decide
  have hpix : get_line_pixels 0 0 0 4600 =
      (List.range 4600).map (fun k : ℕ => ((0, (k : ℤ)) : ℤ × ℤ)) ++ [((0 : ℤ), (4600 : ℤ))] := by
    have h := get_line_pixels_row 0 0 4600 (by norm_num)
    norm_num at h
    exact h
  have hbeta : ∀ l : List (ℤ × ℤ),
      l.map (fun p => decide ((10 : ℚ) <
        (fun _ c => if c = 2300 then (0 : ℚ) else 11) p.1 p.2)) =
      l.map (fun p => decide ((10 : ℚ) < if p.2 = 2300 then (0 : ℚ) else 11)) :=
    fun l => rfl
  have hflags : darkFlags 5000 10 (fun _ c => if c = 2300 then 0 else 11)
      (get_line_pixels 0 0 0 4600) =
      List.replicate 2300 true ++ false :: (List.replicate 2299 true ++ [true]) := by
    unfold darkFlags
    rw [hpix]
    have hfe : (((List.range 4600).map (fun k : ℕ => ((0, (k : ℤ)) : ℤ × ℤ)) ++
        [((0 : ℤ), (4600 : ℤ))]).filter (fun p => decide (InBounds 5000 p))) =
        (List.range 4600).map (fun k : ℕ => ((0, (k : ℤ)) : ℤ × ℤ)) ++
          [((0 : ℤ), (4600 : ℤ))] := by
      rw [List.filter_eq_self]
      intro p hp
      rw [List.mem_append] at hp
      rcases hp with hp | hp
      · rw [List.mem_map] at hp
        obtain ⟨k, hk, rfl⟩ := hp
        rw [List.mem_range] at hk
        have hk5 : (k : ℤ) < 5000 := by exact_mod_cast hk.trans (by norm_num)
        simp only [decide_eq_true_eq]
        exact ⟨le_refl 0, by norm_num, Int.ofNat_nonneg k, hk5⟩
      · rw [List.mem_singleton] at hp
        subst hp
        decide
    rw [hfe, hbeta, List.map_append, List.map_map]
    have h46 : (4600 : ℕ) = 2301 + 2299 := by norm_num
    rw [h46, List.range_add, List.map_append, List.map_map]
    have h23 : (2301 : ℕ) = 2300 + 1 := by norm_num
    rw [h23, List.range_succ, List.map_append]
    have hA : (List.range 2300).map
        ((fun p : ℤ × ℤ => decide ((10 : ℚ) < if p.2 = 2300 then (0 : ℚ) else 11)) ∘
          (fun k : ℕ => ((0, (k : ℤ)) : ℤ × ℤ))) = List.replicate 2300 true := by
      rw [List.eq_replicate_iff]
      refine ⟨by simp, ?_⟩
      intro b hb
      rw [List.mem_map] at hb
      obtain ⟨k, hk, rfl⟩ := hb
      rw [List.mem_range] at hk
      have hne : ((k : ℤ)) ≠ 2300 := by
        intro h
        have : k = 2300 := by exact_mod_cast h
        omega
      simp only [Function.comp_apply]
      rw [if_neg hne]
      norm_num
    have hB : ([2300] : List ℕ).map
        ((fun p : ℤ × ℤ => decide ((10 : ℚ) < if p.2 = 2300 then (0 : ℚ) else 11)) ∘
          (fun k : ℕ => ((0, (k : ℤ)) : ℤ × ℤ))) = [false] := by
      simp only [List.map_cons, List.map_nil, Function.comp_apply]
      norm_num
    have hC : (List.range 2299).map
        (((fun p : ℤ × ℤ => decide ((10 : ℚ) < if p.2 = 2300 then (0 : ℚ) else 11)) ∘
          (fun k : ℕ => ((0, (k : ℤ)) : ℤ × ℤ))) ∘ (fun x : ℕ => 2300 + 1 + x)) =
        List.replicate 2299 true := by
      rw [List.eq_replicate_iff]
      refine ⟨by simp, ?_⟩
      intro b hb
      rw [List.mem_map] at hb
      obtain ⟨k, hk, rfl⟩ := hb
      rw [List.mem_range] at hk
      have hne : (((2300 + 1 + k : ℕ) : ℤ)) ≠ 2300 := by
        intro h
        have : 2300 + 1 + k = 2300 := by exact_mod_cast h
        omega
      simp only [Function.comp_apply]
      rw [if_neg hne]
      norm_num
    have hD : ([((0 : ℤ), (4600 : ℤ))] : List (ℤ × ℤ)).map
        (fun p : ℤ × ℤ => decide ((10 : ℚ) < if p.2 = 2300 then (0 : ℚ) else 11)) =
        [true] := by
      simp only [List.map_cons, List.map_nil]
      norm_num
    rw [hA, hB, hC, hD]
    simp only [List.append_assoc, List.nil_append, List.singleton_append, List.cons_append]
  have hsegs : dark_segments 5000 10 (fun _ c => if c = 2300 then 0 else 11)
      (get_line_pixels 0 0 0 4600) = [2300, 2300] := by
    rw [dark_segments_eq_maximalRuns, hflags]
    unfold maximalRuns
    rw [maximalRunsAux_replicate_true, maximalRunsAux_false,
      if_pos (by norm_num : 0 < 0 + 2300), maximalRunsAux_replicate_true,
      maximalRunsAux_true, maximalRunsAux_nil]
    norm_num
  have hscoreB : contour_score 5000 10 (fun _ c => if c = 2300 then 0 else 11)
      (get_line_pixels 1 0 1 0) = 10000001 := by
    unfold contour_score
    rw [hsmall]
    norm_num
  have hscoreA : contour_score 5000 10 (fun _ c => if c = 2300 then 0 else 11)
      (get_line_pixels 0 0 0 4600) = 10580000 := by
    unfold contour_score
    rw [hsegs]
    norm_num
  exact ⟨hsmall, hsegs, by norm_num, by rw [hscoreA, hscoreB]; norm_num⟩

/-- Claim C3 (amended): the contour score of a chord equals 0 when the chord's
in-bounds pixels have 0 above-threshold runs, continuity + 10000000 for exactly
1 run, and bare continuity (sum of squared run lengths) for 2 or more runs,
where the runs computed by the scan are exactly the maximal above-threshold
runs of the in-bounds pixel trace; and a chord with one unbroken dark run of
length L ≥ 1 outscores a chord with two separate runs of lengths L1, L2
whenever L1² + L2² ≤ 10000000 (the bonus dominates only boundedly long runs,
so "even when L1+L2 > L" holds under that bound, not universally). -/
theorem c3_amended (size size' : ℕ) (t t' : ℚ) (res res' : Grid)
    (pts pts' : List (ℤ × ℤ)) (L L1 L2 : ℕ)
    (hA : dark_segments size t res pts = [L]) (hL : 1 ≤ L)
    (hB : dark_segments size' t' res' pts' = [L1, L2])
    (hbound : L1 * L1 + L2 * L2 ≤ 10000000) :
    contour_score size' t' res' pts' < contour_score size t res pts ∧
    (∀ (s : ℕ) (th : ℚ) (re : Grid) (ps : List (ℤ × ℤ)),
      contour_score s th re ps =
        (if (dark_segments s th re ps).length = 1 then
          (((((dark_segments s th re ps).map (fun l : ℕ => l * l)).sum : ℕ)) : ℚ) + 10000000
         else if (dark_segments s th re ps).length = 0 then 0
         else (((((dark_segments s th re ps).map (fun l : ℕ => l * l)).sum : ℕ)) : ℚ))) ∧
    (∀ (s : ℕ) (th : ℚ) (re : Grid) (ps : List (ℤ × ℤ)),
      dark_segments s th re ps = maximalRuns (darkFlags s th re ps)) := by
  refine ⟨?_, fun s th re ps => rfl, fun s th re ps => dark_segments_eq_maximalRuns s th re ps⟩
  have hsA : contour_score size t res pts = ((L * L : ℕ) : ℚ) + 10000000 := by
    unfold contour_score
    rw [hA]
    norm_num
  have hsB : contour_score size' t' res' pts' = ((L1 * L1 + L2 * L2 : ℕ) : ℚ) := by
    unfold contour_score
    rw [hB]
    norm_num
  rw [hsA, hsB]
  have h1 : (1 : ℕ) ≤ L * L := Nat.one_le_iff_ne_zero.mpr (by positivity)
  have hc1 : ((L1 * L1 + L2 * L2 : ℕ) : ℚ) ≤ 10000000 := by exact_mod_cast hbound
  have hc2 : (1 : ℚ) ≤ ((L * L : ℕ) : ℚ) := by exact_mod_cast h1
  linarith

/-- Claim C3 witness: concrete single-run and two-run chords within the bound,
where the single-run chord wins. -/
theorem c3_amended_witness :
    dark_segments 3 10 (fun _ _ => 11) [((0 : ℤ), (0 : ℤ))] = [1] ∧
    dark_segments 3 10 (fun _ c => if c = 1 then 0 else 11)
      [((0 : ℤ), (0 : ℤ)), (0, 1), (0, 2)] = [1, 1] ∧
    1 * 1 + 1 * 1 ≤ 10000000 ∧
    contour_score 3 10 (fun _ c => if c = 1 then 0 else 11)
        [((0 : ℤ), (0 : ℤ)), (0, 1), (0, 2)] <
      contour_score 3 10 (fun _ _ => 11) [((0 : ℤ), (0 : ℤ))] :=
  ⟨by decide, by decide, by norm_num,
    (c3_amended 3 3 10 10 (fun _ _ => 11) (fun _ c => if c = 1 then 0 else 11)
      [((0 : ℤ), (0 : ℤ))] [((0 : ℤ), (0 : ℤ)), (0, 1), (0, 2)] 1 1 1
      (by decide) (by norm_num) (by decide) (by norm_num)).1⟩

theorem lineLoop_length (steep : Bool) (sr sc dc2 dr2 : ℤ) :
    ∀ (n : ℕ) (r c d : ℤ), (lineLoop steep sr sc dc2 dr2 n r c d).length = n := by
  intro n
  induction n with
  | zero => intro r c d; rfl
  | succ m ih =>
    intro r c d
    rw [lineLoop]
    simp only [List.length_cons]
    rw [ih]

theorem get_line_pixels_length (r0 c0 r1 c1 : ℤ) :
    (get_line_pixels r0 c0 r1 c1).length =
      max (r1 - r0).natAbs (c1 - c0).natAbs + 1 := by
  simp only [get_line_pixels]
  by_cases h : (c1 - c0).natAbs < (r1 - r0).natAbs
  · rw [if_pos h]
    simp only [List.length_append, List.length_cons, List.length_nil, lineLoop_length]
    omega
  · rw [if_neg h]
    simp only [List.length_append, List.length_cons, List.length_nil, lineLoop_length]
    omega

theorem get_line_pixels_mem_last (r0 c0 r1 c1 : ℤ) :
    (r1, c1) ∈ get_line_pixels r0 c0 r1 c1 := by
  simp only [get_line_pixels]
  by_cases h : (c1 - c0).natAbs < (r1 - r0).natAbs
  · rw [if_pos h]
    exact List.mem_append_right _ (List.mem_singleton.mpr rfl)
  · rw [if_neg h]
    exact List.mem_append_right _ (List.mem_singleton.mpr rfl)

theorem get_line_pixels_mem_first (r0 c0 r1 c1 : ℤ) :
    (r0, c0) ∈ get_line_pixels r0 c0 r1 c1 := by
  simp only [get_line_pixels]
  by_cases h : (c1 - c0).natAbs < (r1 - r0).natAbs
  · rw [if_pos h]
    apply List.mem_append_left
    obtain ⟨m, hm⟩ : ∃ m, (r1 - r0).natAbs = m + 1 := ⟨(r1 - r0).natAbs - 1, by omega⟩
    rw [hm, lineLoop]
    simp only [if_true]
    exact List.mem_cons_self _ _
  · rw [if_neg h]
    by_cases hc : (c1 - c0).natAbs = 0
    · have hr : (r1 - r0).natAbs = 0 := by omega
      have hc1 : c1 = c0 := by
        have := Int.natAbs_eq_zero.mp hc
        omega
      have hr1 : r1 = r0 := by
        have := Int.natAbs_eq_zero.mp hr
        omega
      rw [hc, lineLoop]
      subst hc1
      subst hr1
      exact List.mem_append_right _ (List.mem_singleton.mpr rfl)
    · apply List.mem_append_left
      obtain ⟨m, hm⟩ : ∃ m, (c1 - c0).natAbs = m + 1 := ⟨(c1 - c0).natAbs - 1, by omega⟩
      rw [hm, lineLoop]
      simp only [Bool.false_eq_true, if_false]
      exact List.mem_cons_self _ _

/-- Claim C6 counterexample: rasterization is not symmetric under endpoint
swap.  The chord from (0,0) to (1,2) passes through (1,1), but the chord from
(1,2) to (0,0) passes through (0,1) instead: the two pixel sets differ. -/
theorem c6_counterexample :
    get_line_pixels 0 0 1 2 = [(0, 0), (1, 1), (1, 2)] ∧
    get_line_pixels 1 2 0 0 = [(1, 2), (0, 1), (0, 0)] ∧
    ((1 : ℤ), (1 : ℤ)) ∈ get_line_pixels 0 0 1 2 ∧
    ((1 : ℤ), (1 : ℤ)) ∉ get_line_pixels 1 2 0 0 := by decide

/-- Claim C6 (amended): rasterizing the chord from p0 to p1 and from p1 to p0
yields pixel sequences of equal length that both contain both endpoint pixels;
the full pixel sets may differ (at exact-half Bresenham ties), so only this
weaker symmetry holds. -/
theorem c6_amended (r0 c0 r1 c1 : ℤ) :
    (get_line_pixels r0 c0 r1 c1).length = (get_line_pixels r1 c1 r0 c0).length ∧
    (r0, c0) ∈ get_line_pixels r0 c0 r1 c1 ∧
    (r1, c1) ∈ get_line_pixels r0 c0 r1 c1 ∧
    (r0, c0) ∈ get_line_pixels r1 c1 r0 c0 ∧
    (r1, c1) ∈ get_line_pixels r1 c1 r0 c0 := by
  refine ⟨?_, get_line_pixels_mem_first r0 c0 r1 c1, get_line_pixels_mem_last r0 c0 r1 c1,
    get_line_pixels_mem_last r1 c1 r0 c0, get_line_pixels_mem_first r1 c1 r0 c0⟩
  rw [get_line_pixels_length, get_line_pixels_length]
  have h1 : (r1 - r0).natAbs = (r0 - r1).natAbs := by omega
  have h2 : (c1 - c0).natAbs = (c0 - c1).natAbs := by omega
  rw [h1, h2]

/-- Claim C1: in every iteration that commits (for any scoring policy, all of
which are non-negative on the search's residual fields), the committed next
nail is a candidate index different from the current nail achieving the
maximum score over all candidates, and among candidates achieving the exact
maximum the one with the smallest nail index is selected (the scan updates
only on strictly greater scores, so the first maximizer in ascending index
order wins, deterministically). -/
theorem c1_committed_nail_first_argmax (score : ScoreFn) (cfg : GConfig) (st : SAState)
    (hN : 2 ≤ cfg.num_nails)
    (hs : ∀ j : ℕ, j < cfg.num_nails → 0 ≤ score st.residual_image st.current_nail (j : ℤ))
    (hc : (stepG score cfg st).isSome = true) :
    ∃ b : ℕ, b < cfg.num_nails ∧ (b : ℤ) ≠ st.current_nail ∧
      (stepG score cfg st).map SAState.path = some (st.path ++ [(b : ℤ)]) ∧
      (∀ j : ℕ, j < cfg.num_nails → (j : ℤ) ≠ st.current_nail →
        score st.residual_image st.current_nail (j : ℤ) ≤
          score st.residual_image st.current_nail (b : ℤ)) ∧
      (∀ j : ℕ, j < cfg.num_nails → (j : ℤ) ≠ st.current_nail →
        score st.residual_image st.current_nail (j : ℤ) =
          score st.residual_image st.current_nail (b : ℤ) → b ≤ j) := by
  obtain ⟨b, hbn, hbc, hbeq, hmax, hmin⟩ :=
    findBest_of_nonneg (fun j => score st.residual_image st.current_nail (j : ℤ))
      cfg.num_nails st.current_nail hN hs
  refine ⟨b, hbn, hbc, ?_, hmax, hmin⟩
  unfold stepG at hc ⊢
  by_cases hlt : (findBest (fun j => score st.residual_image st.current_nail (j : ℤ))
      cfg.num_nails st.current_nail).2 < cfg.min_improvement_score
  · rw [if_pos hlt] at hc
    exact absurd hc (by simp)
  · rw [if_neg hlt]
    rw [hbeq]
    rfl

/-- Claim C1 witness: a concrete committing step with three nails, where the
scan selects the maximizer. -/
theorem c1_witness :
    2 ≤ (⟨3, 1, fun _ => (0, 0), 25, 0⟩ : GConfig).num_nails ∧
    (∀ j : ℕ, j < (⟨3, 1, fun _ => (0, 0), 25, 0⟩ : GConfig).num_nails →
      (0 : ℚ) ≤ (fun (_ : Grid) (_ j : ℤ) => (j : ℚ))
        (⟨fun _ _ => 100, 0, [0]⟩ : SAState).residual_image
        (⟨fun _ _ => 100, 0, [0]⟩ : SAState).current_nail (j : ℤ)) ∧
    (stepG (fun (_ : Grid) (_ j : ℤ) => (j : ℚ)) ⟨3, 1, fun _ => (0, 0), 25, 0⟩
      ⟨fun _ _ => 100, 0, [0]⟩).isSome = true ∧
    ∃ b : ℕ, b < (⟨3, 1, fun _ => (0, 0), 25, 0⟩ : GConfig).num_nails ∧
      (b : ℤ) ≠ (⟨fun _ _ => 100, 0, [0]⟩ : SAState).current_nail ∧
      (stepG (fun (_ : Grid) (_ j : ℤ) => (j : ℚ)) ⟨3, 1, fun _ => (0, 0), 25, 0⟩
        ⟨fun _ _ => 100, 0, [0]⟩).map SAState.path =
        some ((⟨fun _ _ => 100, 0, [0]⟩ : SAState).path ++ [(b : ℤ)]) ∧
      (∀ j : ℕ, j < (⟨3, 1, fun _ => (0, 0), 25, 0⟩ : GConfig).num_nails →
        (j : ℤ) ≠ (⟨fun _ _ => 100, 0, [0]⟩ : SAState).current_nail →
        ((j : ℤ) : ℚ) ≤ ((b : ℤ) : ℚ)) ∧
      (∀ j : ℕ, j < (⟨3, 1, fun _ => (0, 0), 25, 0⟩ : GConfig).num_nails →
        (j : ℤ) ≠ (⟨fun _ _ => 100, 0, [0]⟩ : SAState).current_nail →
        ((j : ℤ) : ℚ) = ((b : ℤ) : ℚ) → b ≤ j) := by
  refine ⟨by norm_num, by decide, by decide, ?_⟩
  exact c1_committed_nail_first_argmax (fun (_ : Grid) (_ j : ℤ) => (j : ℚ))
    ⟨3, 1, fun _ => (0, 0), 25, 0⟩ ⟨fun _ _ => 100, 0, [0]⟩
    (by norm_num) (by decide) (by decide)

/-- Claim C2: after any number of committed chords, every in-bounds value of
the residual field lies in [0, 255], in both darkness mode (residual
initialized as 255 minus the intensity field, `GreedyGenerator`) and
negative-space mode (residual initialized as the intensity field itself,
`NegativeGreedyGenerator`), for an initial intensity field with values in
[0, 255]: each update clips to [0, 255] and untouched pixels keep their
in-range values. -/
theorem c2_residual_in_range (cfg : GConfig) (eye_protection_mask intensity : Grid)
    (num_lines : ℕ) (r c : ℤ)
    (hint : ∀ r' c', InBounds cfg.image_size (r', c') →
      0 ≤ intensity r' c' ∧ intensity r' c' ≤ 255)
    (hrc : InBounds cfg.image_size (r, c)) :
    (0 ≤ (greedy_generate_path cfg (fun r' c' => 255 - intensity r' c')
        num_lines).residual_image r c ∧
      (greedy_generate_path cfg (fun r' c' => 255 - intensity r' c')
        num_lines).residual_image r c ≤ 255) ∧
    (0 ≤ (negative_generate_path cfg eye_protection_mask intensity
        num_lines).residual_image r c ∧
      (negative_generate_path cfg eye_protection_mask intensity
        num_lines).residual_image r c ≤ 255) := by
  have hclip : ∀ v : ℚ, 0 ≤ clip v ∧ clip v ≤ 255 := clip_mem_Icc
  obtain ⟨h0, h255⟩ := hint r c hrc
  constructor
  · exact runG_preserves (fun v => 0 ≤ v ∧ v ≤ 255) hclip (mean_score cfg) cfg
      num_lines ⟨fun r' c' => 255 - intensity r' c', 0, [0]⟩ r c
      ⟨by show (0 : ℚ) ≤ 255 - intensity r c; linarith,
       by show 255 - intensity r c ≤ (255 : ℚ); linarith⟩
  · exact runG_preserves (fun v => 0 ≤ v ∧ v ≤ 255) hclip
      (negative_score cfg eye_protection_mask) cfg
      num_lines ⟨intensity, 0, [0]⟩ r c ⟨h0, h255⟩

/-- Claim C2 witness: a constant intensity field of 100 on a 2×2 grid stays in
range at pixel (0,0) after one commit in both modes. -/
theorem c2_witness :
    (∀ r' c', InBounds (⟨2, 2, fun _ => (0, 0), 25, 0⟩ : GConfig).image_size (r', c') →
      (0 : ℚ) ≤ (fun _ _ => (100 : ℚ)) r' c' ∧ (fun _ _ => (100 : ℚ)) r' c' ≤ 255) ∧
    InBounds (⟨2, 2, fun _ => (0, 0), 25, 0⟩ : GConfig).image_size ((0 : ℤ), (0 : ℤ)) ∧
    ((0 ≤ (greedy_generate_path ⟨2, 2, fun _ => (0, 0), 25, 0⟩
        (fun r' c' => 255 - (fun _ _ => (100 : ℚ)) r' c') 1).residual_image 0 0 ∧
      (greedy_generate_path ⟨2, 2, fun _ => (0, 0), 25, 0⟩
        (fun r' c' => 255 - (fun _ _ => (100 : ℚ)) r' c') 1).residual_image 0 0 ≤ 255) ∧
     (0 ≤ (negative_generate_path ⟨2, 2, fun _ => (0, 0), 25, 0⟩ (fun _ _ => 1)
        (fun _ _ => (100 : ℚ)) 1).residual_image 0 0 ∧
      (negative_generate_path ⟨2, 2, fun _ => (0, 0), 25, 0⟩ (fun _ _ => 1)
        (fun _ _ => (100 : ℚ)) 1).residual_image 0 0 ≤ 255)) := by
  refine ⟨by intro r' c' h; norm_num, by decide, ?_⟩
  exact c2_residual_in_range ⟨2, 2, fun _ => (0, 0), 25, 0⟩ (fun _ _ => 1)
    (fun _ _ => (100 : ℚ)) 1 0 0 (by intro r' c' h; norm_num) (by decide)

/-- Claim C4: the search loop terminates and commits at most `num_lines` chords
for every configuration and scoring policy (the loop is structurally bounded by
`num_lines`, even for an unreachably low `min_improvement_score`); and with
`min_improvement_score = 0` and a residual field positive everywhere in bounds,
the greedy search commits exactly `num_lines` chords, terminating via the
max-lines condition rather than early exit. -/
theorem c4_terminates_max_lines (cfg : GConfig) (residual : Grid) (num_lines : ℕ)
    (hN : 2 ≤ cfg.num_nails) (hmin : cfg.min_improvement_score = 0)
    (hres : ∀ r c, InBounds cfg.image_size (r, c) → 0 < residual r c) :
    (∀ (score : ScoreFn) (cfg' : GConfig) (m : ℕ) (st : SAState),
      (runG score cfg' m st).path.length ≤ st.path.length + m) ∧
    (greedy_generate_path cfg residual num_lines).path.length = num_lines + 1 := by
  refine ⟨fun score cfg' m st => runG_length_le score cfg' m st, ?_⟩
  unfold greedy_generate_path
  rw [runG_exact_length (mean_score cfg) cfg hN (le_of_eq hmin)
    (fun res cur j h => mean_score_nonneg cfg res cur (j : ℤ) h)
    num_lines ⟨residual, 0, [0]⟩ (fun r c hrc => le_of_lt (hres r c hrc))]
  show 1 + num_lines = num_lines + 1
  omega

/-- Claim C4 witness: a 2-nail, threshold-0 run on a positive residual commits
exactly 3 chords in 3 iterations. -/
theorem c4_witness :
    2 ≤ (⟨2, 1, fun _ => (0, 0), 25, 0⟩ : GConfig).num_nails ∧
    (⟨2, 1, fun _ => (0, 0), 25, 0⟩ : GConfig).min_improvement_score = 0 ∧
    (∀ r c : ℤ, InBounds (⟨2, 1, fun _ => (0, 0), 25, 0⟩ : GConfig).image_size (r, c) →
      (0 : ℚ) < (fun _ _ => (100 : ℚ)) r c) ∧
    (greedy_generate_path ⟨2, 1, fun _ => (0, 0), 25, 0⟩
      (fun _ _ => (100 : ℚ)) 3).path.length = 3 + 1 :=
  ⟨by norm_num, rfl, by intro r c h; norm_num,
    (c4_terminates_max_lines ⟨2, 1, fun _ => (0, 0), 25, 0⟩ (fun _ _ => (100 : ℚ)) 3
      (by norm_num) rfl (by intro r c h; norm_num)).2⟩

theorem mean_score_zero (cfg : GConfig) (residual : Grid) (a b : ℤ)
    (hres : ∀ r c, InBounds cfg.image_size (r, c) → residual r c = 0) :
    mean_score cfg residual a b = 0 := by
  unfold mean_score
  by_cases h : 0 < (chordPixels cfg.nail_coords cfg.image_size a b).length
  · simp only [h, if_true]
    have hsum : ((chordPixels cfg.nail_coords cfg.image_size a b).map
        (fun p => residual p.1 p.2)).sum = 0 := by
      apply List.sum_eq_zero
      intro x hx
      rw [List.mem_map] at hx
      obtain ⟨p, hp, rfl⟩ := hx
      exact hres p.1 p.2 (chordPixels_inbounds cfg.nail_coords cfg.image_size a b p hp)
    rw [hsum, zero_div]
  · simp only [h, if_false]

/-- Claim C5: when `min_improvement_score` exceeds 0 (the best any policy can
score on a uniformly zero residual field), the greedy search exits on the very
first iteration without committing: the returned path is exactly `[0]` and the
residual field is returned untouched. -/
theorem c5_early_exit_uniform_zero (cfg : GConfig) (residual : Grid) (num_lines : ℕ)
    (hmin : 0 < cfg.min_improvement_score)
    (hres : ∀ r c, InBounds cfg.image_size (r, c) → residual r c = 0) :
    (greedy_generate_path cfg residual num_lines).path = [0] ∧
    (greedy_generate_path cfg residual num_lines).residual_image = residual := by
  have hstep : stepG (mean_score cfg) cfg ⟨residual, 0, [0]⟩ = none := by
    unfold stepG
    rw [if_pos ?_]
    show (findBest (fun j => mean_score cfg residual 0 (j : ℤ)) cfg.num_nails 0).2 <
      cfg.min_improvement_score
    rcases findBest_spec (fun j => mean_score cfg residual 0 (j : ℤ)) cfg.num_nails 0 with
      ⟨heq, -⟩ | ⟨b, -, -, hbeq, -, -⟩
    · rw [heq]
      show (-1 : ℚ) < cfg.min_improvement_score
      linarith
    · rw [hbeq]
      show mean_score cfg residual 0 (b : ℤ) < cfg.min_improvement_score
      rw [mean_score_zero cfg residual 0 (b : ℤ) hres]
      exact hmin
  unfold greedy_generate_path
  rw [stepG_none_runG (mean_score cfg) cfg num_lines ⟨residual, 0, [0]⟩ hstep]
  exact ⟨rfl, rfl⟩

/-- Claim C5 witness: with threshold 10 and a uniformly zero residual, a
5-iteration run returns path `[0]` and the untouched field. -/
theorem c5_witness :
    0 < (⟨2, 1, fun _ => (0, 0), 25, 10⟩ : GConfig).min_improvement_score ∧
    (∀ r c : ℤ, InBounds (⟨2, 1, fun _ => (0, 0), 25, 10⟩ : GConfig).image_size (r, c) →
      (fun _ _ => (0 : ℚ)) r c = 0) ∧
    (greedy_generate_path ⟨2, 1, fun _ => (0, 0), 25, 10⟩ (fun _ _ => (0 : ℚ)) 5).path = [0] ∧
    (greedy_generate_path ⟨2, 1, fun _ => (0, 0), 25, 10⟩
      (fun _ _ => (0 : ℚ)) 5).residual_image = (fun _ _ => (0 : ℚ)) :=
  ⟨by norm_num, by intro r c h; rfl,
    (c5_early_exit_uniform_zero ⟨2, 1, fun _ => (0, 0), 25, 10⟩ (fun _ _ => (0 : ℚ)) 5
      (by norm_num) (by intro r c h; rfl)).1,
    (c5_early_exit_uniform_zero ⟨2, 1, fun _ => (0, 0), 25, 10⟩ (fun _ _ => (0 : ℚ)) 5
      (by norm_num) (by intro r c h; rfl)).2⟩

theorem sum_map_const_q {α : Type} (l : List α) (f : α → ℚ) (q : ℚ)
    (h : ∀ x ∈ l, f x = q) : (l.map f).sum = l.length * q := by
  induction l with
  | nil => simp
  | cons a t ih =>
    rw [List.map_cons, List.sum_cons, h a (List.mem_cons_self a t),
      ih (fun x hx => h x (List.mem_cons_of_mem a hx))]
    simp only [List.length_cons]
    push_cast
    ring

/-- Claim C8: the negative-space score is the mean residual over the chord's
in-bounds pixels times the mean protection weight over those same pixels, and
0 when there are no in-bounds pixels; consequently a chord whose pixels all
carry mask weight 1/10 scores strictly lower than the otherwise-identical
chord whose pixels all carry weight 1, whenever the residual mean over those
pixels is positive. -/
theorem c8_negative_space_mask (cfg : GConfig) (residual mask1 mask2 : Grid) (a b : ℤ)
    (h1 : ∀ p ∈ chordPixels cfg.nail_coords cfg.image_size a b, mask1 p.1 p.2 = 1)
    (h2 : ∀ p ∈ chordPixels cfg.nail_coords cfg.image_size a b, mask2 p.1 p.2 = 1 / 10)
    (hne : chordPixels cfg.nail_coords cfg.image_size a b ≠ [])
    (hpos : 0 < ((chordPixels cfg.nail_coords cfg.image_size a b).map
      (fun p => residual p.1 p.2)).sum /
        ((chordPixels cfg.nail_coords cfg.image_size a b).length : ℚ)) :
    negative_score cfg mask2 residual a b < negative_score cfg mask1 residual a b ∧
    (∀ (cfg' : GConfig) (mask' res' : Grid) (a' b' : ℤ),
      chordPixels cfg'.nail_coords cfg'.image_size a' b' = [] →
      negative_score cfg' mask' res' a' b' = 0) := by
  constructor
  · have hlen : 0 < (chordPixels cfg.nail_coords cfg.image_size a b).length :=
      List.length_pos.mpr hne
    have hlq : ((chordPixels cfg.nail_coords cfg.image_size a b).length : ℚ) ≠ 0 := by
      exact_mod_cast Nat.pos_iff_ne_zero.mp hlen
    unfold negative_score
    simp only [hlen, if_true]
    have hm1 : ((chordPixels cfg.nail_coords cfg.image_size a b).map
        (fun p => mask1 p.1 p.2)).sum = (chordPixels cfg.nail_coords cfg.image_size a b).length * 1 :=
      sum_map_const_q _ _ 1 h1
    have hm2 : ((chordPixels cfg.nail_coords cfg.image_size a b).map
        (fun p => mask2 p.1 p.2)).sum = (chordPixels cfg.nail_coords cfg.image_size a b).length * (1 / 10) :=
      sum_map_const_q _ _ (1 / 10) h2
    rw [hm1, hm2, mul_div_cancel_left₀ _ hlq, mul_div_cancel_left₀ _ hlq]
    exact mul_lt_mul_of_pos_left (by norm_num) hpos
  · intro cfg' mask' res' a' b' hempty
    unfold negative_score
    rw [hempty]
    simp

/-- Claim C8 witness: a concrete 3-pixel chord with constant residual 100,
where the 1/10-masked score is strictly below the unmasked score. -/
theorem c8_witness :
    (∀ p ∈ chordPixels (fun n => if n = 0 then (0, 0) else (2, 0))
        (⟨2, 3, fun n => if n = 0 then (0, 0) else (2, 0), 25, 0⟩ : GConfig).image_size 0 1,
      (fun _ _ => (1 : ℚ)) p.1 p.2 = 1) ∧
    (∀ p ∈ chordPixels (fun n => if n = 0 then (0, 0) else (2, 0))
        (⟨2, 3, fun n => if n = 0 then (0, 0) else (2, 0), 25, 0⟩ : GConfig).image_size 0 1,
      (fun _ _ => (1 : ℚ) / 10) p.1 p.2 = 1 / 10) ∧
    chordPixels (fun n => if n = 0 then (0, 0) else (2, 0)) 3 0 1 ≠ [] ∧
    negative_score ⟨2, 3, fun n => if n = 0 then (0, 0) else (2, 0), 25, 0⟩
        (fun _ _ => (1 : ℚ) / 10) (fun _ _ => (100 : ℚ)) 0 1 <
      negative_score ⟨2, 3, fun n => if n = 0 then (0, 0) else (2, 0), 25, 0⟩
        (fun _ _ => (1 : ℚ)) (fun _ _ => (100 : ℚ)) 0 1 := by
  have hc : chordPixels (fun n => if n = 0 then (0, 0) else (2, 0)) 3 0 1 =
      [((0 : ℤ), (0 : ℤ)), (0, 1), (0, 2)] := by decide
  refine ⟨fun p _ => rfl, fun p _ => rfl, by decide, ?_⟩
  refine (c8_negative_space_mask ⟨2, 3, fun n => if n = 0 then (0, 0) else (2, 0), 25, 0⟩
    (fun _ _ => (100 : ℚ)) (fun _ _ => (1 : ℚ)) (fun _ _ => (1 : ℚ) / 10) 0 1
    (fun p _ => rfl) (fun p _ => rfl) (by decide) ?_).1
  show 0 < ((chordPixels (fun n => if n = 0 then (0, 0) else (2, 0)) 3 0 1).map
    (fun p => (100 : ℚ))).sum / ((chordPixels (fun n => if n = 0 then (0, 0) else (2, 0)) 3 0 1).length : ℚ)
  rw [hc]
  norm_num

theorem runG_one (score : ScoreFn) (cfg : GConfig) (st st' : SAState)
    (h : stepG score cfg st = some st') : runG score cfg 1 st = st' := by
  show (match stepG score cfg st with
        | none => st
        | some s => runG score cfg 0 s) = st'
  rw [h]
  rfl

/-- Claim C9 counterexample: the source recognizes no `start_nail` option.  On
a 2-nail configuration the spec-modelled search with `start_nail = 1` produces
path `[1, 0]`, while the source's `generate_path` (start hardcoded to 0)
produces `[0, 1]`: no run of the source can start anywhere but nail 0, so the
claimed configurable start nail does not exist in the code. -/
theorem c9_counterexample :
    (greedy_generate_path ⟨2, 1, fun _ => (0, 0), 25, 0⟩ (fun _ _ => 100) 1).path = [0, 1] ∧
    (generate_path_spec_start 1 ⟨2, 1, fun _ => (0, 0), 25, 0⟩ (fun _ _ => 100) 1).path = [1, 0] ∧
    (greedy_generate_path ⟨2, 1, fun _ => (0, 0), 25, 0⟩ (fun _ _ => 100) 1).path ≠
      (generate_path_spec_start 1 ⟨2, 1, fun _ => (0, 0), 25, 0⟩ (fun _ _ => 100) 1).path := by
  have hchord : ∀ a b : ℤ,
      chordPixels (⟨2, 1, fun _ => (0, 0), 25, 0⟩ : GConfig).nail_coords
        (⟨2, 1, fun _ => (0, 0), 25, 0⟩ : GConfig).image_size a b = [((0 : ℤ), (0 : ℤ))] :=
    fun a b => rfl
  have hms : ∀ a b : ℤ,
      mean_score ⟨2, 1, fun _ => (0, 0), 25, 0⟩ (fun _ _ => (100 : ℚ)) a b = 100 := by
    intro a b
    unfold mean_score
    rw [hchord a b]
    norm_num
  have hfb0 : ∀ cur : ℤ, findBest (fun _ : ℕ => (100 : ℚ)) 0 cur = (-1, -1) := fun _ => rfl
  have hsc : ∀ start : ℤ,
      (fun j : ℕ => mean_score ⟨2, 1, fun _ => (0, 0), 25, 0⟩ (fun _ _ => (100 : ℚ)) start (j : ℤ)) =
        (fun _ : ℕ => (100 : ℚ)) := by
    intro start
    funext j
    exact hms start (j : ℤ)
  have hfb_a : findBest (fun _ : ℕ => (100 : ℚ)) 2 0 = (1, 100) := by
    have e2 : (2 : ℕ) = 1 + 1 := rfl
    have e1 : (1 : ℕ) = 0 + 1 := rfl
    rw [e2, findBest_succ, e1, findBest_succ, hfb0]
    norm_num
  have hfb_b : findBest (fun _ : ℕ => (100 : ℚ)) 2 1 = (0, 100) := by
    have e2 : (2 : ℕ) = 1 + 1 := rfl
    have e1 : (1 : ℕ) = 0 + 1 := rfl
    rw [e2, findBest_succ, e1, findBest_succ, hfb0]
    norm_num
  have hstep_a : stepG (mean_score ⟨2, 1, fun _ => (0, 0), 25, 0⟩)
      ⟨2, 1, fun _ => (0, 0), 25, 0⟩ ⟨fun _ _ => (100 : ℚ), 0, [0]⟩ =
      some ⟨commitLine ⟨2, 1, fun _ => (0, 0), 25, 0⟩ (fun _ _ => (100 : ℚ)) 0 1, 1, [0, 1]⟩ := by
    unfold stepG
    rw [show (⟨fun _ _ => (100 : ℚ), 0, [0]⟩ : SAState).residual_image = (fun _ _ => (100 : ℚ)) from rfl]
    rw [show (⟨fun _ _ => (100 : ℚ), 0, [0]⟩ : SAState).current_nail = (0 : ℤ) from rfl]
    rw [hsc 0, hfb_a]
    norm_num
  have hstep_b : stepG (mean_score ⟨2, 1, fun _ => (0, 0), 25, 0⟩)
      ⟨2, 1, fun _ => (0, 0), 25, 0⟩ ⟨fun _ _ => (100 : ℚ), 1, [1]⟩ =
      some ⟨commitLine ⟨2, 1, fun _ => (0, 0), 25, 0⟩ (fun _ _ => (100 : ℚ)) 1 0, 0, [1, 0]⟩ := by
    unfold stepG
    rw [show (⟨fun _ _ => (100 : ℚ), 1, [1]⟩ : SAState).residual_image = (fun _ _ => (100 : ℚ)) from rfl]
    rw [show (⟨fun _ _ => (100 : ℚ), 1, [1]⟩ : SAState).current_nail = (1 : ℤ) from rfl]
    rw [hsc 1, hfb_b]
    norm_num
  have hga : (greedy_generate_path ⟨2, 1, fun _ => (0, 0), 25, 0⟩ (fun _ _ => 100) 1).path = [0, 1] := by
    unfold greedy_generate_path
    rw [runG_one _ _ _ _ hstep_a]
  have hgb : (generate_path_spec_start 1 ⟨2, 1, fun _ => (0, 0), 25, 0⟩
      (fun _ _ => 100) 1).path = [1, 0] := by
    unfold generate_path_spec_start
    rw [runG_one _ _ _ _ hstep_b]
  refine ⟨hga, hgb, ?_⟩
  rw [hga, hgb]
  decide

/-- Claim C9 (amended): the source's search has no `start_nail` configuration
option; the start nail is hardcoded to 0, the source search coincides with the
spec-modelled configurable search instantiated at the spec's default
`start_nail = 0`, and the first element of every returned path is 0. -/
theorem c9_amended (cfg : GConfig) (residual : Grid) (num_lines : ℕ) :
    greedy_generate_path cfg residual num_lines =
      generate_path_spec_start 0 cfg residual num_lines ∧
    (greedy_generate_path cfg residual num_lines).path.head? = some 0 := by
  refine ⟨rfl, ?_⟩
  unfold greedy_generate_path
  rw [runG_head (mean_score cfg) cfg num_lines ⟨residual, 0, [0]⟩ (by simp)]
  rfl

/-- Claim C10: every scoring policy yields non-negative candidate scores on
non-negative residuals (with a non-negative weight mask), so with at least two
nails the candidate scan always lands on a real candidate: every element of
every generated path lies in [0, num_nails) — the -1 sentinel is never appended
to the path (and so never indexes the nail-coordinate array). -/
theorem c10_sentinel_never_escapes (cfg : GConfig) (darkness_threshold : ℚ)
    (eye_protection_mask residual : Grid) (num_lines : ℕ)
    (hN : 2 ≤ cfg.num_nails)
    (hres : ∀ r c, InBounds cfg.image_size (r, c) → 0 ≤ residual r c)
    (hmask : ∀ r c, 0 ≤ eye_protection_mask r c) :
    (∀ (res : Grid) (cur : ℤ) (j : ℕ),
      (∀ r c, InBounds cfg.image_size (r, c) → 0 ≤ res r c) →
      0 ≤ mean_score cfg res cur (j : ℤ) ∧
      0 ≤ sum_score cfg res cur (j : ℤ) ∧
      0 ≤ contour_policy cfg darkness_threshold res cur (j : ℤ) ∧
      0 ≤ negative_score cfg eye_protection_mask res cur (j : ℤ)) ∧
    (∀ x ∈ (greedy_generate_path cfg residual num_lines).path,
      0 ≤ x ∧ x < cfg.num_nails) ∧
    (∀ x ∈ (contour_generate_path cfg darkness_threshold residual num_lines).path,
      0 ≤ x ∧ x < cfg.num_nails) ∧
    (∀ x ∈ (negative_generate_path cfg eye_protection_mask residual num_lines).path,
      0 ≤ x ∧ x < cfg.num_nails) ∧
    (∀ x ∈ (main_greedy_generate_path cfg residual num_lines).path,
      0 ≤ x ∧ x < cfg.num_nails) := by
  have hinit : ∀ x ∈ ([0] : List ℤ), 0 ≤ x ∧ x < cfg.num_nails := by
    intro x hx
    rw [List.mem_singleton] at hx
    subst hx
    refine ⟨le_refl 0, ?_⟩
    exact_mod_cast Nat.lt_of_lt_of_le (by norm_num) hN
  refine ⟨fun res cur j h =>
    ⟨mean_score_nonneg cfg res cur (j : ℤ) h,
     sum_score_nonneg cfg res cur (j : ℤ) h,
     contour_policy_nonneg cfg darkness_threshold res cur (j : ℤ),
     negative_score_nonneg cfg eye_protection_mask res cur (j : ℤ) h hmask⟩, ?_, ?_, ?_, ?_⟩
  · exact runG_path_valid (mean_score cfg) cfg hN
      (fun res cur j h => mean_score_nonneg cfg res cur (j : ℤ) h)
      num_lines ⟨residual, 0, [0]⟩ hres hinit
  · exact runG_path_valid (contour_policy cfg darkness_threshold) cfg hN
      (fun res cur j h => contour_policy_nonneg cfg darkness_threshold res cur (j : ℤ))
      num_lines ⟨residual, 0, [0]⟩ hres hinit
  · exact runG_path_valid (negative_score cfg eye_protection_mask) cfg hN
      (fun res cur j h => negative_score_nonneg cfg eye_protection_mask res cur (j : ℤ) h hmask)
      num_lines ⟨residual, 0, [0]⟩ hres hinit
  · exact runG_path_valid (sum_score cfg) cfg hN
      (fun res cur j h => sum_score_nonneg cfg res cur (j : ℤ) h)
      num_lines ⟨residual, 0, [0]⟩ hres hinit

/-- Claim C10 witness: a concrete 2-nail run whose path stays inside
[0, num_nails). -/
theorem c10_witness :
    2 ≤ (⟨2, 1, fun _ => (0, 0), 25, 0⟩ : GConfig).num_nails ∧
    (∀ r c : ℤ, InBounds (⟨2, 1, fun _ => (0, 0), 25, 0⟩ : GConfig).image_size (r, c) →
      (0 : ℚ) ≤ (fun _ _ => (100 : ℚ)) r c) ∧
    (∀ r c : ℤ, (0 : ℚ) ≤ (fun _ _ => (1 : ℚ)) r c) ∧
    (∀ x ∈ (greedy_generate_path ⟨2, 1, fun _ => (0, 0), 25, 0⟩
        (fun _ _ => (100 : ℚ)) 2).path,
      0 ≤ x ∧ x < (⟨2, 1, fun _ => (0, 0), 25, 0⟩ : GConfig).num_nails) :=
  ⟨by norm_num, fun r c _ => by norm_num, fun r c => by norm_num,
    (c10_sentinel_never_escapes ⟨2, 1, fun _ => (0, 0), 25, 0⟩ 10 (fun _ _ => (1 : ℚ))
      (fun _ _ => (100 : ℚ)) 2 (by norm_num) (fun r c _ => by norm_num)
      (fun r c => by norm_num)).2.1⟩

theorem pyInt_of_nonneg (x : ℝ) (h : 0 ≤ x) : pyInt x = ⌊x⌋ := if_pos h

/-- Claim C7 (amended): for every N ≥ 2 and image size ≥ 10, the
nail-coordinate computation returns exactly N integer points, point i being
center + radius·(cos(2πi/N), sin(2πi/N)) truncated to integers, and each point
lies within √2 (≈ 1.42) of distance `radius` from the center — not within 1
pixel, and the points need not be pairwise distinct. -/
theorem c7_amended (N s : ℕ) (hN : 2 ≤ N) (hs : 10 ≤ s) :
    (calculate_nail_coords N s).length = N ∧
    ∀ p ∈ calculate_nail_coords N s,
      |distToCenter s p - (radiusOf s : ℝ)| ≤ Real.sqrt 2 := by
  constructor
  · unfold calculate_nail_coords
    rw [List.length_map, List.length_range]
  · intro p hp
    unfold calculate_nail_coords at hp
    rw [List.mem_map] at hp
    obtain ⟨i, -, rfl⟩ := hp
    set c : ℝ := ((centerOf s : ℕ) : ℝ) with hc
    set r : ℝ := ((radiusOf s : ℝ)) with hr
    set θ : ℝ := nailAngle N i with hθ
    have hc5 : (5 : ℝ) ≤ c := by
      rw [hc]
      have : (5 : ℕ) ≤ centerOf s := by
        unfold centerOf
        omega
      exact_mod_cast this
    have hrc : r = c - 5 := by
      rw [hr, hc]
      unfold radiusOf
      push_cast
      ring
    have hr0 : 0 ≤ r := by rw [hrc]; linarith
    set u : ℝ := c + r * Real.cos θ with hu
    set v : ℝ := c + r * Real.sin θ with hv
    have hu0 : 0 ≤ u := by
      have : r * (-1) ≤ r * Real.cos θ :=
        mul_le_mul_of_nonneg_left (Real.neg_one_le_cos θ) hr0
      rw [hu]
      have h5 : (5 : ℝ) ≤ c := hc5
      rw [hrc] at this ⊢
      linarith
    have hv0 : 0 ≤ v := by
      have : r * (-1) ≤ r * Real.sin θ :=
        mul_le_mul_of_nonneg_left (Real.neg_one_le_sin θ) hr0
      rw [hv]
      rw [hrc] at this ⊢
      linarith
    rw [pyInt_of_nonneg u hu0, pyInt_of_nonneg v hv0]
    set x : ℝ := ((⌊u⌋ : ℤ) : ℝ) with hx
    set y : ℝ := ((⌊v⌋ : ℤ) : ℝ) with hy
    have hxu1 : x ≤ u := Int.floor_le u
    have hxu2 : u - 1 < x := Int.sub_one_lt_floor u
    have hyv1 : y ≤ v := Int.floor_le v
    have hyv2 : v - 1 < y := Int.sub_one_lt_floor v
    set z1 : ℂ := Complex.ofReal (x - c) + Complex.ofReal (y - c) * Complex.I with hz1
    set z2 : ℂ := Complex.ofReal (u - c) + Complex.ofReal (v - c) * Complex.I with hz2
    have habs2 : Complex.abs z2 = r := by
      rw [hz2, Complex.abs_apply, Complex.normSq_add_mul_I]
      have h1 : u - c = r * Real.cos θ := by rw [hu]; ring
      have h2 : v - c = r * Real.sin θ := by rw [hv]; ring
      rw [h1, h2]
      have h3 : (r * Real.cos θ) ^ 2 + (r * Real.sin θ) ^ 2 = r ^ 2 := by
        have := Real.cos_sq_add_sin_sq θ
        nlinarith [this]
      rw [h3, Real.sqrt_sq hr0]
    have habs1 : distToCenter s (⌊u⌋, ⌊v⌋) = Complex.abs z1 := by
      unfold distToCenter
      rw [hz1, Complex.abs_apply, Complex.normSq_add_mul_I]
    have htri : |Complex.abs z1 - Complex.abs z2| ≤ Complex.abs (z1 - z2) :=
      Complex.abs.abs_abv_sub_le_abv_sub z1 z2
    have hdiff : z1 - z2 = Complex.ofReal (x - u) + Complex.ofReal (y - v) * Complex.I := by
      rw [hz1, hz2]
      push_cast
      ring
    have habsd : Complex.abs (z1 - z2) ≤ Real.sqrt 2 := by
      rw [hdiff, Complex.abs_apply, Complex.normSq_add_mul_I]
      have h1 : (x - u) ^ 2 ≤ 1 := by nlinarith
      have h2 : (y - v) ^ 2 ≤ 1 := by nlinarith
      exact Real.sqrt_le_sqrt (by linarith)
    rw [habs1, ← habs2]
    exact htri.trans habsd

/-- Claim C7 counterexample: distinctness and the 1-pixel distance tolerance
both fail.  With image_size 10 the radius is 10/2 - 5 = 0 and both of the
N = 2 nails collapse to the center (5,5); with image_size 100 and N = 8, nail 1
truncates to (81,81), whose distance √1922 ≈ 43.84 from the center (50,50)
misses the radius 45 by ≈ 1.16 > 1 pixel. -/
theorem c7_counterexample :
    ¬ (calculate_nail_coords 2 10).Nodup ∧
    ((81 : ℤ), (81 : ℤ)) ∈ calculate_nail_coords 8 100 ∧
    1 < |distToCenter 100 (81, 81) - (radiusOf 100 : ℝ)| := by
  have hs2 : Real.sqrt 2 ^ 2 = 2 := Real.sq_sqrt (by norm_num)
  have hs2n : 0 ≤ Real.sqrt 2 := Real.sqrt_nonneg 2
  have hs2lo : (1.41 : ℝ) ≤ Real.sqrt 2 := by nlinarith
  have hs2hi : Real.sqrt 2 < 1.415 := by nlinarith
  refine ⟨?_, ?_, ?_⟩
  · have hlist : calculate_nail_coords 2 10 = [(5, 5), (5, 5)] := by
      unfold calculate_nail_coords
      have hr : ((radiusOf 10 : ℤ) : ℝ) = 0 := by norm_num [radiusOf, centerOf]
      have hc : ((centerOf 10 : ℕ) : ℝ) = 5 := by norm_num [centerOf]
      have hf : ∀ i : ℕ,
          (pyInt (((centerOf 10 : ℕ) : ℝ) +
            ((radiusOf 10 : ℤ) : ℝ) * Real.cos (nailAngle 2 i)),
           pyInt (((centerOf 10 : ℕ) : ℝ) +
            ((radiusOf 10 : ℤ) : ℝ) * Real.sin (nailAngle 2 i))) = ((5 : ℤ), (5 : ℤ)) := by
        intro i
        rw [hr, hc, zero_mul, add_zero, zero_mul, add_zero,
          pyInt_of_nonneg 5 (by norm_num)]
        norm_num
      rw [show List.range 2 = [0, 1] from rfl, List.map_cons, List.map_cons, List.map_nil,
        hf 0, hf 1]
    rw [hlist]
    decide
  · unfold calculate_nail_coords
    rw [List.mem_map]
    refine ⟨1, List.mem_range.mpr (by norm_num), ?_⟩
    have hang : nailAngle 8 1 = Real.pi / 4 := by
      unfold nailAngle
      push_cast
      ring
    have hc : ((centerOf 100 : ℕ) : ℝ) = 50 := by norm_num [centerOf]
    have hr : ((radiusOf 100 : ℤ) : ℝ) = 45 := by norm_num [radiusOf, centerOf]
    rw [hang, hc, hr, Real.cos_pi_div_four, Real.sin_pi_div_four]
    have hu0 : (0 : ℝ) ≤ 50 + 45 * (Real.sqrt 2 / 2) := by nlinarith
    rw [pyInt_of_nonneg _ hu0]
    have hfl : ⌊(50 : ℝ) + 45 * (Real.sqrt 2 / 2)⌋ = 81 := by
      rw [Int.floor_eq_iff]
      constructor
      · push_cast
        nlinarith
      · push_cast
        nlinarith
    rw [hfl]
  · have hd : distToCenter 100 ((81 : ℤ), (81 : ℤ)) = Real.sqrt 1922 := by
      unfold distToCenter
      norm_num [centerOf]
    have hr : ((radiusOf 100 : ℤ) : ℝ) = 45 := by norm_num [radiusOf, centerOf]
    rw [hd, hr]
    have hlt : Real.sqrt 1922 < 44 := (Real.sqrt_lt' (by norm_num)).mpr (by norm_num)
    rw [abs_of_neg (by linarith)]
    linarith

/-- Claim C7 witness: the amended geometry bound instantiated at N = 2,
image_size = 10. -/
theorem c7_witness :
    2 ≤ 2 ∧ 10 ≤ 10 ∧ (calculate_nail_coords 2 10).length = 2 :=
  ⟨by norm_num, by norm_num, (c7_amended 2 10 (by norm_num) (by norm_num)).1⟩
